import Mathlib

/-!
Shallow embedding of the wash-trading detection script
(`Dashboard/assets/data/main.py`) and theorems settling the
specification's claims against it.

The script loads a transaction table, builds one `networkx.DiGraph` per
token, decomposes each graph into strongly connected components, and runs
five detection rules per (token, component) pair, accumulating findings
in five per-category lists.

Modelling conventions:
* prices are rationals (exact arithmetic; the script's 8-decimal rounding
  policy is the stated float-noise absorber, so float representation error
  is out of scope),
* Python dicts (`graphs`, `balances`, `funder_counts`, `receivers`) are
  insertion-ordered association lists,
* Python sets of strings iterate in an order that depends on the
  process's string-hash seed; every place the script materialises or
  iterates such a set (`list(scc)`, `list(targets)`, and the Self-Trade
  loop over `subG.nodes`, a networkx `FilterAtlas` over the SCC set) is
  therefore parameterised by a lister `σ : List String → List String`
  applied to the canonical (insertion-ordered) member list.  A
  deterministic run is `run id`; two OS-level executions are `run σ₁`
  and `run σ₂` for listers that permute their input.
-/

namespace WashTrade

/-- One row of the cleaned transaction table `nft_transactions.csv`:
token id, sender (`from_account`), receiver (`to_account`), price and
timestamp, as consumed by the STEP 1 build loop. -/
structure Row where
  token : String
  fromAcc : String
  toAcc : String
  price : ℚ
  time : Int
deriving DecidableEq, Repr

/-- Insertion-ordered deduplication, accumulator form: the first
occurrence of each element is kept.  This is the key order of a Python
dict built by successive insertions. -/
def dedupAux [DecidableEq α] (acc : List α) : List α → List α
  | [] => acc
  | x :: xs => dedupAux (if x ∈ acc then acc else acc ++ [x]) xs

/-- Insertion-ordered deduplication of a list. -/
def dedupKeepFirst [DecidableEq α] (l : List α) : List α := dedupAux [] l

/-- Directed graph with insertion-ordered node list and an association
list of edges keyed by the ordered pair (source, target), mirroring
`networkx.DiGraph`: at most one edge is stored per ordered pair, and
re-adding the pair overwrites the stored attribute record. -/
structure DiGraph (ν : Type) (τ : Type) where
  nodes : List ν
  edges : List ((ν × ν) × τ)
deriving DecidableEq, Repr

/-- The empty graph, `nx.DiGraph()`. -/
def DiGraph.empty : DiGraph ν τ := ⟨[], []⟩

/-- The ordered pairs that carry an edge. -/
def edgeKeys (g : DiGraph ν τ) : List (ν × ν) := g.edges.map Prod.fst

/-- Register a node, keeping the first-insertion order (`nx` node view). -/
def addNode [DecidableEq ν] (g : DiGraph ν τ) (u : ν) : DiGraph ν τ :=
  if u ∈ g.nodes then g else { g with nodes := g.nodes ++ [u] }

/-- The `DiGraph.add_edge(u, v, **attrs)` call: endpoints are registered
as nodes, then the attribute record for the key (u, v) is overwritten if
the key is present and appended otherwise. -/
def addEdge [DecidableEq ν] (g : DiGraph ν τ) (u v : ν) (a : τ) : DiGraph ν τ :=
  let g1 := addNode (addNode g u) v
  if (u, v) ∈ edgeKeys g1 then
    { g1 with edges := g1.edges.map (fun e => if e.1 = (u, v) then (e.1, a) else e) }
  else
    { g1 with edges := g1.edges ++ [((u, v), a)] }

/-- One iteration of the STEP 1 loop body on the `graphs` dict: create
the token's graph if absent, then `add_edge`. -/
def upsertGraph [DecidableEq κ] [DecidableEq ν] (k : κ) (u v : ν) (a : τ)
    (gs : List (κ × DiGraph ν τ)) : List (κ × DiGraph ν τ) :=
  if gs.any (fun p => decide (p.1 = k)) then
    gs.map (fun p => if p.1 = k then (p.1, addEdge p.2 u v a) else p)
  else
    gs ++ [(k, addEdge DiGraph.empty u v a)]

/-- The STEP 1 build loop over the whole table, generic in the row type
via the key/source/target/attribute projections. -/
def buildWith [DecidableEq κ] [DecidableEq ν]
    (key : ρ → κ) (src : ρ → ν) (dst : ρ → ν) (attr : ρ → τ) (df : List ρ) :
    List (κ × DiGraph ν τ) :=
  df.foldl (fun gs r => upsertGraph (key r) (src r) (dst r) (attr r) gs) []

/-- Dict lookup `graphs[k]` on the association list. -/
def lookupG [DecidableEq κ] (gs : List (κ × DiGraph ν τ)) (k : κ) :
    Option (DiGraph ν τ) :=
  (gs.find? (fun p => decide (p.1 = k))).map Prod.snd

/-- Edge attribute record: the `timestamp=` and `price=` keywords of the
`add_edge` call. -/
structure EAttr where
  time : Int
  price : ℚ
deriving DecidableEq, Repr

/-- Attribute projection for a table row. -/
def rowAttr (r : Row) : EAttr := ⟨r.time, r.price⟩

/-- The per-token graph dictionary built by STEP 1. -/
def buildGraphs (df : List Row) : List (String × DiGraph String EAttr) :=
  buildWith Row.token Row.fromAcc Row.toAcc rowAttr df

/-- Out-neighbours of a node (with multiplicity of stored edges, which is
at most one per target). -/
def succs [DecidableEq ν] (g : DiGraph ν τ) (u : ν) : List ν :=
  g.edges.filterMap (fun e => if e.1.1 = u then some e.1.2 else none)

/-- One breadth step of forward closure. -/
def stepReach [DecidableEq ν] (g : DiGraph ν τ) (s : List ν) : List ν :=
  dedupKeepFirst (s ++ s.flatMap (succs g))

/-- Every node reachable from `u` (including `u` itself): `|nodes|`
breadth steps reach anything a directed path can. -/
def reachList [DecidableEq ν] (g : DiGraph ν τ) (u : ν) : List ν :=
  (stepReach g)^[g.nodes.length] [u]

/-- Mutual reachability, the equivalence whose classes are the strongly
connected components that `nx.strongly_connected_components` returns. -/
def sameComp [DecidableEq ν] (g : DiGraph ν τ) (u v : ν) : Bool :=
  decide (v ∈ reachList g u) && decide (u ∈ reachList g v)

/-- The SCC decomposition as a list of canonical member lists: a node not
covered by an earlier class contributes the class of all nodes mutually
reachable with it, members listed in node-insertion order. -/
def sccsOf [DecidableEq ν] (g : DiGraph ν τ) : List (List ν) :=
  g.nodes.foldl
    (fun acc u =>
      if acc.any (fun c => decide (u ∈ c)) then acc
      else acc ++ [g.nodes.filter (fun v => sameComp g u v)])
    []

/-- Rule 1, Self-Trades: iterate the induced subgraph's nodes and emit
`(token, n)` whenever the edge `n → n` exists.  The iteration
`for node in subG.nodes` runs over a networkx `FilterAtlas`, which
traverses the inducing SCC *set* in process-hash order whenever
`2 * len(scc) < len(G)` and the graph's node-insertion order filtered to
the component otherwise — in either case some permutation of the
component, so the node order is the lister `σ` applied to the canonical
member list. -/
def selfTradeRule (σ : List String → List String) (token : String)
    (G : DiGraph String EAttr) (scc : List String) : List (String × String) :=
  ((σ scc).filter (fun n => decide ((n, n) ∈ edgeKeys G))).map (fun n => (token, n))

/-- The `total_gains` subset: rows of this token whose sender or receiver
is a component member. -/
def touching (df : List Row) (token : String) (scc : List String) : List Row :=
  df.filter (fun r =>
    decide (r.token = token ∧ (r.fromAcc ∈ scc ∨ r.toAcc ∈ scc)))

/-- Net contribution of one row to one account's balance:
`balances[from] -= price; balances[to] += price`. -/
def contrib (acc : String) (r : Row) : ℚ :=
  (if r.toAcc = acc then r.price else 0) - (if r.fromAcc = acc then r.price else 0)

/-- The balance an account accumulates in the `balances` defaultdict over
a row subset. -/
def balance (rows : List Row) (acc : String) : ℚ :=
  (rows.map (contrib acc)).sum

/-- The key set of the `balances` defaultdict in creation order: per row,
the sender is touched before the receiver. -/
def accountsOf (rows : List Row) : List String :=
  dedupKeepFirst (rows.flatMap (fun r => [r.fromAcc, r.toAcc]))

/-- Python's `round(val, 8)` on the exact value, as the scaled integer:
the floor of `val * 10^8 + 1/2` computed on the rational's normal form
(so that it evaluates by kernel reduction).  Half-up tie; Python breaks
exact half-way ties to even, a case none of the claims reach. -/
def round8 (q : ℚ) : ℤ :=
  (q * 100000000 + 1 / 2).num / ((q * 100000000 + 1 / 2).den : ℤ)

/-- Rule 2, Zero-Risk Position: emit `(token, list(scc))` when no account
of the touching subset has a balance that is nonzero after rounding
(the `nonzero_accounts` list comprehension is empty). -/
def zeroRiskRule (σ : List String → List String) (df : List Row)
    (token : String) (scc : List String) : List (String × List String) :=
  if ((accountsOf (touching df token scc)).filter
      (fun a => decide (round8 (balance (touching df token scc) a) ≠ 0))).length = 0 then
    [(token, σ scc)]
  else []

/-- The distinct senders of a row subset, in `funder_counts` key order. -/
def sendersOf (rows : List Row) : List String :=
  dedupKeepFirst (rows.map Row.fromAcc)

/-- The distinct receivers a given funder has sent to within the subset
(the set `funder_counts[f]`, canonical insertion order). -/
def targetsOf (rows : List Row) (f : String) : List String :=
  dedupKeepFirst ((rows.filter (fun r => decide (r.fromAcc = f))).map Row.toAcc)

/-- Rule 3, Common Funder: one finding `(token, funder, list(targets))`
per funder whose distinct-receiver set meets the component in at least
two accounts. -/
def commonFunderRule (σ : List String → List String) (df : List Row)
    (token : String) (scc : List String) : List (String × String × List String) :=
  (sendersOf (touching df token scc)).flatMap (fun f =>
    if 2 ≤ ((targetsOf (touching df token scc) f).filter
        (fun a => decide (a ∈ scc))).length then
      [(token, f, σ (targetsOf (touching df token scc) f))]
    else [])

/-- Increment the per-receiver counter dict, creating the key at count 1. -/
def bumpCount [DecidableEq α] (l : List (α × Nat)) (a : α) : List (α × Nat) :=
  if l.any (fun p => decide (p.1 = a)) then
    l.map (fun p => if p.1 = a then (p.1, p.2 + 1) else p)
  else l ++ [(a, 1)]

/-- The `receivers` defaultdict: incoming-transfer count per receiver in
first-appearance order. -/
def recvCounts (rows : List Row) : List (String × Nat) :=
  rows.foldl (fun l r => bumpCount l r.toAcc) []

/-- Head of `sorted(receivers.items(), key=count, reverse=True)`: Python's
sort is stable, so this is the first-encountered receiver among those
with the maximal count. -/
def topReceiver (l : List (String × Nat)) : Option (String × Nat) :=
  l.foldl
    (fun best x =>
      match best with
      | none => some x
      | some b => if b.2 < x.2 then some x else some b)
    none

/-- Rule 4, Common Exit: if the subset is nonempty and its top receiver
is a component member, emit `(token, that receiver)`. -/
def commonExitRule (df : List Row) (token : String) (scc : List String) :
    List (String × String) :=
  match topReceiver (recvCounts (touching df token scc)) with
  | none => []
  | some t => if t.1 ∈ scc then [(token, t.1)] else []

/-- Rule 5, Repeated SCC Participants, threaded over every component of
the run in processing order.  The key the script actually tests and
inserts is `frozenset(scc)` — the bare account set, without the token
(the token-prefixed `scc_id` string computed at line 38 is never used). -/
def repeatedAll (σ : List String → List String) :
    List (String × DiGraph String EAttr × List String) → List (Finset String) →
    List (String × List String)
  | [], _ => []
  | x :: rest, past =>
    if x.2.2.toFinset ∈ past then (x.1, σ x.2.2) :: repeatedAll σ rest past
    else repeatedAll σ rest (past ++ [x.2.2.toFinset])

/-- The STEP 2 iteration space: every (token, graph, component) triple in
processing order. -/
def allSCCs (df : List Row) : List (String × DiGraph String EAttr × List String) :=
  (buildGraphs df).flatMap (fun p => (sccsOf p.2).map (fun scc => (p.1, p.2, scc)))

/-- The five per-category finding lists of the `detections` dict. -/
structure Detections where
  self_trades : List (String × String)
  zero_risk : List (String × List String)
  common_funder : List (String × String × List String)
  common_exit : List (String × String)
  repeated_scc : List (String × List String)
deriving DecidableEq, Repr

/-- The whole detection pass (STEP 1 + STEP 2): each category list is the
concatenation, over components in processing order, of that rule's
emissions — exactly the script's per-component appends. -/
def run (σ : List String → List String) (df : List Row) : Detections :=
  { self_trades := (allSCCs df).flatMap (fun x => selfTradeRule σ x.1 x.2.1 x.2.2)
    zero_risk := (allSCCs df).flatMap (fun x => zeroRiskRule σ df x.1 x.2.2)
    common_funder := (allSCCs df).flatMap (fun x => commonFunderRule σ df x.1 x.2.2)
    common_exit := (allSCCs df).flatMap (fun x => commonExitRule df x.1 x.2.2)
    repeated_scc := repeatedAll σ (allSCCs df) [] }

/-- A raw table row as `pd.read_csv` materialises it: any field may be a
missing value.  Pandas represents a missing value as `np.nan` — one
shared object, which dict- and node-keying treats as a single key — so a
missing field is `none` and all missing fields coincide. -/
structure RawRow where
  token : Option String
  fromAcc : Option String
  toAcc : Option String
  price : Option ℚ
  time : Option Int
deriving DecidableEq, Repr

/-- Attribute projection for a raw row. -/
def rawAttr (r : RawRow) : Option Int × Option ℚ := (r.time, r.price)

/-- The STEP 1 build loop on the raw table.  `pd.read_csv` performs no
mandatory-field validation: rows with missing sender, receiver or price
are materialised with NaN in those fields and the loop adds their edge
like any other row. -/
def buildGraphsRaw (df : List RawRow) :
    List (Option String × DiGraph (Option String) (Option Int × Option ℚ)) :=
  buildWith RawRow.token RawRow.fromAcc RawRow.toAcc rawAttr df

/-- The part of a detection report that the process's set-iteration
order does not determine: each embedded account list (`list(scc)`,
`list(targets)`) is read back as a multiset, and the Self-Trade list —
whose per-component emission order follows the set-iteration order of
`subG.nodes` — is read back as a multiset of findings. -/
structure NormDetections where
  self_trades : Multiset (String × String)
  zero_risk : List (String × Multiset String)
  common_funder : List (String × String × Multiset String)
  common_exit : List (String × String)
  repeated_scc : List (String × Multiset String)
deriving DecidableEq

/-- Normalise a detection report to its lister-independent content. -/
def normDet (d : Detections) : NormDetections :=
  { self_trades := (d.self_trades : Multiset (String × String))
    zero_risk := d.zero_risk.map (fun x => (x.1, (x.2 : Multiset String)))
    common_funder := d.common_funder.map (fun x => (x.1, x.2.1, (x.2.2 : Multiset String)))
    common_exit := d.common_exit
    repeated_scc := d.repeated_scc.map (fun x => (x.1, (x.2 : Multiset String))) }

/-- Per-category finding counts: the numbers the STEP 3 summary prints. -/
def countsOf (d : Detections) : Nat × Nat × Nat × Nat × Nat :=
  (d.self_trades.length, d.zero_risk.length, d.common_funder.length,
   d.common_exit.length, d.repeated_scc.length)

/-- The two-transfer cycle of the spec's first scenario: asset T1 with
A→B at price 10 and B→A at price 10. -/
def dfPair : List Row := [⟨"T1", "A", "B", 10, 0⟩, ⟨"T1", "B", "A", 10, 1⟩]

/-- Two assets carrying the same two-account cycle {A, B}: T1 first,
then T2. -/
def dfTwoTokens : List Row :=
  [⟨"T1", "A", "B", 10, 0⟩, ⟨"T1", "B", "A", 10, 1⟩,
   ⟨"T2", "A", "B", 7, 2⟩, ⟨"T2", "B", "A", 7, 3⟩]

/-- Two parallel transfers A→B on the same asset, with different prices
and timestamps. -/
def dfC1 : List Row := [⟨"T1", "A", "B", 10, 0⟩, ⟨"T1", "A", "B", 20, 1⟩]

/-- The spec's second scenario: asset T2 with the single self-transfer
A→A at price 5. -/
def dfSelf : List Row := [⟨"T2", "A", "A", 5, 0⟩]

/-- The graph STEP 1 builds for `dfSelf`. -/
def gSelf : DiGraph String EAttr := ⟨["A"], [(("A", "A"), ⟨0, 5⟩)]⟩

/-- A raw table row missing its mandatory price field. -/
def rawT1 : RawRow := ⟨some "T1", some "A", some "B", none, some 0⟩

/-- The graph STEP 1 builds for `dfC1`: one merged A→B edge whose
attributes come from the second transaction. -/
def gC1 : DiGraph String EAttr := ⟨["A", "B"], [(("A", "B"), ⟨1, 20⟩)]⟩

/-- A lister reading a set out in reversed insertion order: one concrete
alternative set-iteration order a Python process may exhibit. -/
def revLister (l : List String) : List String := l.reverse

/-- The graph a single token's row list folds up to: what `graphs[k]`
holds after STEP 1, since rows of other tokens leave that entry alone. -/
def buildOne [DecidableEq ν] (src : ρ → ν) (dst : ρ → ν) (attr : ρ → τ)
    (rows : List ρ) : DiGraph ν τ :=
  rows.foldl (fun g r => addEdge g (src r) (dst r) (attr r)) DiGraph.empty

/-! ### Basic lemmas about the helper containers -/

theorem dedupAux_append [DecidableEq α] (acc : List α) (l₁ l₂ : List α) :
    dedupAux acc (l₁ ++ l₂) = dedupAux (dedupAux acc l₁) l₂ := by
  induction l₁ generalizing acc with
  | nil => simp [dedupAux]
  | cons x xs ih => simp [dedupAux, ih]

theorem mem_dedupAux [DecidableEq α] (acc l : List α) (a : α) :
    a ∈ dedupAux acc l ↔ a ∈ acc ∨ a ∈ l := by
  induction l generalizing acc with
  | nil => simp [dedupAux]
  | cons x xs ih =>
    by_cases hx : x ∈ acc
    · simp only [dedupAux, if_pos hx, ih, List.mem_cons]
      constructor
      · rintro (h | h)
        · exact Or.inl h
        · exact Or.inr (Or.inr h)
      · rintro (h | h | h)
        · exact Or.inl h
        · exact Or.inl (h ▸ hx)
        · exact Or.inr h
    · simp only [dedupAux, if_neg hx, ih, List.mem_append, List.mem_singleton,
        List.mem_cons]
      tauto

theorem mem_dedupKeepFirst [DecidableEq α] (l : List α) (a : α) :
    a ∈ dedupKeepFirst l ↔ a ∈ l := by
  simp [dedupKeepFirst, mem_dedupAux]

theorem nodup_dedupAux [DecidableEq α] (acc l : List α) (h : acc.Nodup) :
    (dedupAux acc l).Nodup := by
  induction l generalizing acc with
  | nil => exact h
  | cons x xs ih =>
    by_cases hx : x ∈ acc
    · simpa [dedupAux, if_pos hx] using ih acc h
    · refine ih _ ?_
      simp [List.nodup_append, h, hx]

theorem nodup_dedupKeepFirst [DecidableEq α] (l : List α) :
    (dedupKeepFirst l).Nodup :=
  nodup_dedupAux [] l List.nodup_nil

theorem countP_eq_of_nodup [DecidableEq α] (l : List α) (hl : l.Nodup) (a : α) :
    l.countP (fun x => decide (x = a)) = if a ∈ l then 1 else 0 := by
  induction l with
  | nil => simp
  | cons x l ih =>
    rw [List.countP_cons, ih (List.nodup_cons.1 hl).2]
    by_cases hx : x = a
    · subst hx
      have hnx : x ∉ l := (List.nodup_cons.1 hl).1
      simp [hnx]
    · simp only [List.mem_cons]
      have hax : ¬ a = x := fun hc => hx hc.symm
      simp [hx, hax]

/-! ### Rounding -/

theorem round8_eq_floor (q : ℚ) : round8 q = ⌊q * 100000000 + 1 / 2⌋ := by
  unfold round8
  rw [Rat.floor_def]

theorem round8_zero : round8 0 = 0 := by
  rw [round8_eq_floor]
  norm_num

theorem round8_eq_zero_iff (q : ℚ) :
    round8 q = 0 ↔ -(1 / 2) ≤ q * 100000000 ∧ q * 100000000 < 1 / 2 := by
  rw [round8_eq_floor, Int.floor_eq_zero_iff]
  constructor
  · rintro ⟨h0, h1⟩
    constructor <;> [linarith [h0]; linarith [h1]]
  · rintro ⟨h0, h1⟩
    constructor <;> [simp; skip] <;> [linarith; linarith]

theorem round8_sub_ne_zero (b δ : ℚ) (hb : round8 b = 0)
    (hδ : 1 / 100000000 < δ ∨ δ < -(1 / 100000000)) :
    round8 (b - δ) ≠ 0 := by
  intro hc
  rw [round8_eq_zero_iff] at hb hc
  obtain ⟨hb0, hb1⟩ := hb
  obtain ⟨hc0, hc1⟩ := hc
  have hexp : (b - δ) * 100000000 = b * 100000000 - δ * 100000000 := by ring
  rw [hexp] at hc0 hc1
  rcases hδ with h | h
  · have : (1 : ℚ) < δ * 100000000 := by linarith
    linarith
  · have : δ * 100000000 < -1 := by linarith
    linarith

/-! ### Dictionary lookup and the STEP 1 build loop -/

section Build

variable {κ ν τ ρ : Type} [DecidableEq κ] [DecidableEq ν]

theorem lookupG_nil (k : κ) : lookupG ([] : List (κ × DiGraph ν τ)) k = none := rfl

theorem lookupG_cons (p : κ × DiGraph ν τ) (gs : List (κ × DiGraph ν τ)) (k : κ) :
    lookupG (p :: gs) k = if p.1 = k then some p.2 else lookupG gs k := by
  by_cases h : p.1 = k <;> simp [lookupG, List.find?_cons, h]

theorem lookupG_eq_none_of_any_false (gs : List (κ × DiGraph ν τ)) (k : κ)
    (h : gs.any (fun p => decide (p.1 = k)) = false) : lookupG gs k = none := by
  induction gs with
  | nil => rfl
  | cons p gs ih =>
    simp only [List.any_cons, Bool.or_eq_false_iff, decide_eq_false_iff_not] at h
    rw [lookupG_cons, if_neg h.1]
    exact ih (by simpa using h.2)

theorem lookupG_isSome_of_any_true (gs : List (κ × DiGraph ν τ)) (k : κ)
    (h : gs.any (fun p => decide (p.1 = k)) = true) : ∃ g, lookupG gs k = some g := by
  induction gs with
  | nil => simp at h
  | cons p gs ih =>
    rw [lookupG_cons]
    by_cases hp : p.1 = k
    · exact ⟨p.2, by rw [if_pos hp]⟩
    · simp only [List.any_cons, Bool.or_eq_true, decide_eq_true_eq] at h
      rcases h with h | h
      · exact absurd h hp
      · rw [if_neg hp]; exact ih h

theorem lookupG_map_update (gs : List (κ × DiGraph ν τ)) (kk k : κ) (u v : ν) (a : τ) :
    lookupG (gs.map (fun p => if p.1 = kk then (p.1, addEdge p.2 u v a) else p)) k =
      if kk = k then (lookupG gs k).map (fun g => addEdge g u v a) else lookupG gs k := by
  induction gs with
  | nil => by_cases h : kk = k <;> simp [lookupG_nil, h]
  | cons p gs ih =>
    rw [List.map_cons]
    by_cases h1 : p.1 = kk
    · rw [if_pos h1, lookupG_cons]
      by_cases h2 : p.1 = k
      · have hk : kk = k := h1 ▸ h2
        rw [if_pos h2, if_pos hk, lookupG_cons, if_pos h2]
        rfl
      · have hk : ¬ kk = k := fun hc => h2 (h1.trans hc)
        rw [if_neg h2, if_neg hk, ih, if_neg hk, lookupG_cons, if_neg h2]
    · rw [if_neg h1, lookupG_cons]
      by_cases h2 : p.1 = k
      · have hk : ¬ kk = k := fun hc => h1 (h2.trans hc.symm)
        rw [if_pos h2, if_neg hk, lookupG_cons, if_pos h2]
      · rw [if_neg h2, ih, lookupG_cons, if_neg h2]

theorem lookupG_append_single (gs : List (κ × DiGraph ν τ)) (kk k : κ) (g : DiGraph ν τ)
    (h : gs.any (fun p => decide (p.1 = kk)) = false) :
    lookupG (gs ++ [(kk, g)]) k = if kk = k then some g else lookupG gs k := by
  induction gs with
  | nil => by_cases hk : kk = k <;> simp [lookupG_cons, lookupG_nil, hk]
  | cons p gs ih =>
    simp only [List.any_cons, Bool.or_eq_false_iff, decide_eq_false_iff_not] at h
    rw [List.cons_append, lookupG_cons, lookupG_cons]
    by_cases hp : p.1 = k
    · by_cases hk : kk = k
      · exact absurd (hk.trans hp.symm).symm h.1
      · rw [if_pos hp, if_neg hk, if_pos hp]
    · rw [if_neg hp, if_neg hp, ih (by simpa using h.2)]

theorem lookupG_upsert (gs : List (κ × DiGraph ν τ)) (kk k : κ) (u v : ν) (a : τ) :
    lookupG (upsertGraph kk u v a gs) k =
      if kk = k then some (addEdge ((lookupG gs kk).getD DiGraph.empty) u v a)
      else lookupG gs k := by
  unfold upsertGraph
  by_cases hany : gs.any (fun p => decide (p.1 = kk)) = true
  · rw [if_pos hany, lookupG_map_update]
    by_cases hk : kk = k
    · subst hk
      obtain ⟨g, hg⟩ := lookupG_isSome_of_any_true gs kk hany
      simp [hg]
    · rw [if_neg hk, if_neg hk]
  · have hf : gs.any (fun p => decide (p.1 = kk)) = false := by
      revert hany
      cases gs.any (fun p => decide (p.1 = kk)) <;> simp
    rw [if_neg hany, lookupG_append_single gs kk k _ hf]
    by_cases hk : kk = k
    · subst hk
      rw [if_pos rfl, if_pos rfl, lookupG_eq_none_of_any_false gs kk hf]
      rfl
    · rw [if_neg hk, if_neg hk]

theorem lookupG_foldl_upsert (key : ρ → κ) (src dst : ρ → ν) (attr : ρ → τ)
    (df : List ρ) (k : κ) (gs : List (κ × DiGraph ν τ)) :
    lookupG (df.foldl (fun gs r => upsertGraph (key r) (src r) (dst r) (attr r) gs) gs) k =
      (df.filter (fun r => decide (key r = k))).foldl
        (fun og r => some (addEdge (og.getD DiGraph.empty) (src r) (dst r) (attr r)))
        (lookupG gs k) := by
  induction df generalizing gs with
  | nil => rfl
  | cons r df ih =>
    rw [List.foldl_cons, ih]
    by_cases h : key r = k
    · rw [List.filter_cons_of_pos (by simpa using h), List.foldl_cons, lookupG_upsert,
        if_pos h, h]
    · rw [List.filter_cons_of_neg (by simpa using h), lookupG_upsert, if_neg h]

theorem foldl_addEdge_some (src dst : ρ → ν) (attr : ρ → τ) (rows : List ρ)
    (g : DiGraph ν τ) :
    rows.foldl
        (fun og r => some (addEdge (og.getD DiGraph.empty) (src r) (dst r) (attr r)))
        (some g) =
      some (rows.foldl (fun g r => addEdge g (src r) (dst r) (attr r)) g) := by
  induction rows generalizing g with
  | nil => rfl
  | cons r rows ih => rw [List.foldl_cons, List.foldl_cons]; exact ih _

theorem lookupG_buildWith_none (key : ρ → κ) (src dst : ρ → ν) (attr : ρ → τ)
    (df : List ρ) (k : κ) (h : df.filter (fun r => decide (key r = k)) = []) :
    lookupG (buildWith key src dst attr df) k = none := by
  unfold buildWith
  rw [lookupG_foldl_upsert, h]
  rfl

theorem lookupG_buildWith_some (key : ρ → κ) (src dst : ρ → ν) (attr : ρ → τ)
    (df : List ρ) (k : κ) (r : ρ) (rows : List ρ)
    (h : df.filter (fun r => decide (key r = k)) = r :: rows) :
    lookupG (buildWith key src dst attr df) k =
      some (buildOne src dst attr (r :: rows)) := by
  unfold buildWith buildOne
  rw [lookupG_foldl_upsert, h, List.foldl_cons, List.foldl_cons, lookupG_nil]
  exact foldl_addEdge_some _ _ _ _ _

theorem lookupG_buildWith_char (key : ρ → κ) (src dst : ρ → ν) (attr : ρ → τ)
    (df : List ρ) (k : κ) (G : DiGraph ν τ)
    (h : lookupG (buildWith key src dst attr df) k = some G) :
    G = buildOne src dst attr (df.filter (fun r => decide (key r = k))) := by
  cases hf : df.filter (fun r => decide (key r = k)) with
  | nil =>
    rw [lookupG_buildWith_none key src dst attr df k hf] at h
    exact absurd h (by simp)
  | cons r rows =>
    rw [lookupG_buildWith_some key src dst attr df k r rows hf] at h
    exact (Option.some_injective _ h).symm

theorem lookupG_mem (gs : List (κ × DiGraph ν τ)) (k : κ) (G : DiGraph ν τ)
    (h : lookupG gs k = some G) : (k, G) ∈ gs := by
  induction gs with
  | nil => simp [lookupG_nil] at h
  | cons p gs ih =>
    rw [lookupG_cons] at h
    by_cases hp : p.1 = k
    · rw [if_pos hp] at h
      obtain ⟨a, b⟩ := p
      obtain rfl : a = k := hp
      obtain rfl : b = G := Option.some_injective _ h
      exact List.mem_cons_self _ _
    · rw [if_neg hp] at h
      exact List.mem_cons_of_mem _ (ih h)

end Build

/-! ### Structure of the built graphs -/

section GraphStruct

variable {ν τ ρ : Type} [DecidableEq ν]

theorem edges_addNode (g : DiGraph ν τ) (u : ν) : (addNode g u).edges = g.edges := by
  unfold addNode
  split <;> rfl

theorem nodes_addEdge (g : DiGraph ν τ) (u v : ν) (a : τ) :
    (addEdge g u v a).nodes = (addNode (addNode g u) v).nodes := by
  unfold addEdge
  dsimp only
  split <;> rfl

theorem nodup_nodes_addNode (g : DiGraph ν τ) (u : ν) (h : g.nodes.Nodup) :
    (addNode g u).nodes.Nodup := by
  unfold addNode
  split
  · exact h
  · next hu => simp [List.nodup_append, h, hu]

theorem nodup_nodes_addEdge (g : DiGraph ν τ) (u v : ν) (a : τ) (h : g.nodes.Nodup) :
    (addEdge g u v a).nodes.Nodup := by
  rw [show (addEdge g u v a).nodes = (addNode (addNode g u) v).nodes from
    nodes_addEdge g u v a]
  exact nodup_nodes_addNode _ _ (nodup_nodes_addNode _ _ h)

theorem nodup_nodes_buildOne (src dst : ρ → ν) (attr : ρ → τ) (rows : List ρ) :
    (buildOne src dst attr rows).nodes.Nodup := by
  unfold buildOne
  have h : ∀ g : DiGraph ν τ, g.nodes.Nodup →
      (rows.foldl (fun g r => addEdge g (src r) (dst r) (attr r)) g).nodes.Nodup := by
    induction rows with
    | nil => intro g hg; exact hg
    | cons r rows ih => intro g hg; exact ih _ (nodup_nodes_addEdge _ _ _ _ hg)
  exact h DiGraph.empty List.nodup_nil

theorem edgeKeys_addNode (g : DiGraph ν τ) (u : ν) :
    edgeKeys (addNode g u) = edgeKeys g := by
  unfold edgeKeys
  rw [edges_addNode]

theorem edges_addEdge_pos (g : DiGraph ν τ) (u v : ν) (a : τ)
    (h : (u, v) ∈ edgeKeys g) :
    (addEdge g u v a).edges =
      g.edges.map (fun e => if e.1 = (u, v) then (e.1, a) else e) := by
  unfold addEdge
  dsimp only
  rw [if_pos (by rwa [edgeKeys_addNode, edgeKeys_addNode]), edges_addNode, edges_addNode]

theorem edges_addEdge_neg (g : DiGraph ν τ) (u v : ν) (a : τ)
    (h : (u, v) ∉ edgeKeys g) :
    (addEdge g u v a).edges = g.edges ++ [((u, v), a)] := by
  unfold addEdge
  dsimp only
  rw [if_neg (by rwa [edgeKeys_addNode, edgeKeys_addNode]), edges_addNode, edges_addNode]

theorem edgeKeys_addEdge (g : DiGraph ν τ) (u v : ν) (a : τ) :
    edgeKeys (addEdge g u v a) =
      if (u, v) ∈ edgeKeys g then edgeKeys g else edgeKeys g ++ [(u, v)] := by
  by_cases h : (u, v) ∈ edgeKeys g
  · rw [if_pos h]
    unfold edgeKeys
    rw [edges_addEdge_pos g u v a h, List.map_map]
    apply List.map_congr_left
    intro e _
    simp only [Function.comp_apply]
    split <;> simp_all
  · rw [if_neg h]
    unfold edgeKeys
    rw [edges_addEdge_neg g u v a h, List.map_append]
    rfl

theorem dedupKeepFirst_append_single [DecidableEq α] (l : List α) (x : α) :
    dedupKeepFirst (l ++ [x]) =
      if x ∈ dedupKeepFirst l then dedupKeepFirst l else dedupKeepFirst l ++ [x] := by
  unfold dedupKeepFirst
  rw [dedupAux_append]
  simp [dedupAux]

theorem buildOne_spec (src dst : ρ → ν) (attr : ρ → τ) (rows : List ρ) :
    edgeKeys (buildOne src dst attr rows) =
        dedupKeepFirst (rows.map (fun r => (src r, dst r))) ∧
      ∀ e ∈ (buildOne src dst attr rows).edges,
        ((rows.filter (fun r => decide ((src r, dst r) = e.1))).getLast?).map attr =
          some e.2 := by
  induction rows using List.reverseRecOn with
  | nil =>
    refine ⟨rfl, ?_⟩
    intro e he
    simp [buildOne, DiGraph.empty] at he
  | append_singleton rows r ih =>
    obtain ⟨ihk, ihe⟩ := ih
    have hb : buildOne src dst attr (rows ++ [r]) =
        addEdge (buildOne src dst attr rows) (src r) (dst r) (attr r) := by
      unfold buildOne
      rw [List.foldl_append]
      rfl
    refine ⟨?_, ?_⟩
    · rw [hb, edgeKeys_addEdge, ihk, List.map_append, List.map_cons, List.map_nil,
        dedupKeepFirst_append_single]
      by_cases hmem : (src r, dst r) ∈ dedupKeepFirst (rows.map (fun r => (src r, dst r)))
      · rw [if_pos hmem, if_pos hmem]
      · rw [if_neg hmem, if_neg hmem]
    · intro e he
      rw [hb] at he
      by_cases hm : (src r, dst r) ∈ edgeKeys (buildOne src dst attr rows)
      · rw [edges_addEdge_pos _ _ _ _ hm] at he
        obtain ⟨e0, he0, rfl⟩ := List.mem_map.1 he
        by_cases h0 : e0.1 = (src r, dst r)
        · rw [if_pos h0]
          dsimp only
          rw [List.filter_append, h0]
          have hr : (rows.filter (fun x => decide ((src x, dst x) = (src r, dst r)))
              ++ [r].filter (fun x => decide ((src x, dst x) = (src r, dst r))))
              = rows.filter (fun x => decide ((src x, dst x) = (src r, dst r))) ++ [r] := by
            simp
          rw [hr, List.getLast?_append, List.getLast?_singleton]
          rfl
        · rw [if_neg h0]
          rw [List.filter_append]
          have hr : [r].filter (fun x => decide ((src x, dst x) = e0.1)) = [] := by
            simp [Ne.symm h0]
          rw [hr, List.append_nil]
          exact ihe e0 he0
      · rw [edges_addEdge_neg _ _ _ _ hm] at he
        rcases List.mem_append.1 he with he0 | he0
        · have hne : e.1 ≠ (src r, dst r) := by
            intro hc
            exact hm (hc ▸ List.mem_map_of_mem Prod.fst he0)
          rw [List.filter_append]
          have hr : [r].filter (fun x => decide ((src x, dst x) = e.1)) = [] := by
            rw [List.filter_eq_nil_iff]
            intro x hx
            simp only [List.mem_singleton] at hx
            subst hx
            simp only [decide_eq_true_eq]
            exact fun hc => hne hc.symm
          rw [hr, List.append_nil]
          exact ihe e he0
        · have he1 : e = ((src r, dst r), attr r) := by simpa using he0
          subst he1
          have hfil : rows.filter (fun x => decide ((src x, dst x) = (src r, dst r))) = [] := by
            rw [List.filter_eq_nil_iff]
            intro x hx hc
            apply hm
            rw [ihk, mem_dedupKeepFirst]
            simp only [decide_eq_true_eq] at hc
            exact hc ▸ List.mem_map_of_mem _ hx
          rw [List.filter_append, hfil, List.nil_append]
          simp

theorem mem_edgeKeys_buildOne (src dst : ρ → ν) (attr : ρ → τ) (rows : List ρ)
    (r : ρ) (hr : r ∈ rows) :
    (src r, dst r) ∈ edgeKeys (buildOne src dst attr rows) := by
  rw [(buildOne_spec src dst attr rows).1, mem_dedupKeepFirst]
  exact List.mem_map_of_mem _ hr

end GraphStruct

/-! ### Balances and the Zero-Risk rule -/

theorem balance_nil (acc : String) : balance [] acc = 0 := rfl

theorem balance_cons (r : Row) (rows : List Row) (acc : String) :
    balance (r :: rows) acc = contrib acc r + balance rows acc := by
  unfold balance
  rw [List.map_cons, List.sum_cons]

theorem balance_append (xs ys : List Row) (acc : String) :
    balance (xs ++ ys) acc = balance xs acc + balance ys acc := by
  unfold balance
  rw [List.map_append, List.sum_append]

theorem mem_accountsOf (rows : List Row) (a : String) :
    a ∈ accountsOf rows ↔ ∃ r ∈ rows, r.fromAcc = a ∨ r.toAcc = a := by
  unfold accountsOf
  rw [mem_dedupKeepFirst]
  simp only [List.mem_flatMap, List.mem_cons, List.mem_singleton, List.not_mem_nil,
    or_false]
  constructor
  · rintro ⟨r, hr, h | h⟩
    · exact ⟨r, hr, Or.inl h.symm⟩
    · exact ⟨r, hr, Or.inr h.symm⟩
  · rintro ⟨r, hr, h | h⟩
    · exact ⟨r, hr, Or.inl h.symm⟩
    · exact ⟨r, hr, Or.inr h.symm⟩

theorem balance_eq_zero_of_not_mem (rows : List Row) (a : String)
    (h : a ∉ accountsOf rows) : balance rows a = 0 := by
  induction rows with
  | nil => rfl
  | cons r rows ih =>
    have h1 : ¬(r.fromAcc = a ∨ r.toAcc = a) := fun hc =>
      h ((mem_accountsOf _ _).2 ⟨r, List.mem_cons_self _ _, hc⟩)
    have h2 : a ∉ accountsOf rows := by
      intro hc
      obtain ⟨r0, hr0, hor⟩ := (mem_accountsOf _ _).1 hc
      exact h ((mem_accountsOf _ _).2 ⟨r0, List.mem_cons_of_mem _ hr0, hor⟩)
    have hc : contrib a r = 0 := by
      unfold contrib
      rw [if_neg (fun hx => h1 (Or.inr hx)), if_neg (fun hx => h1 (Or.inl hx))]
      ring
    rw [balance_cons, hc, ih h2, add_zero]

theorem balance_zero_of_selfrows (rows : List Row)
    (h : ∀ r ∈ rows, r.fromAcc = r.toAcc) (acc : String) : balance rows acc = 0 := by
  induction rows with
  | nil => rfl
  | cons r rows ih =>
    have hr := h r (List.mem_cons_self _ _)
    have hc : contrib acc r = 0 := by
      unfold contrib
      rw [hr]
      exact sub_self _
    rw [balance_cons, hc, ih (fun x hx => h x (List.mem_cons_of_mem _ hx)), add_zero]

theorem zeroRisk_cond_iff (rows : List Row) :
    ((accountsOf rows).filter
        (fun a => decide (round8 (balance rows a) ≠ 0))).length = 0 ↔
      ∀ acc, round8 (balance rows acc) = 0 := by
  rw [List.length_eq_zero, List.filter_eq_nil_iff]
  constructor
  · intro h acc
    by_cases hm : acc ∈ accountsOf rows
    · have := h acc hm
      simpa using this
    · rw [balance_eq_zero_of_not_mem rows acc hm]
      exact round8_zero
  · intro h a _
    simp [h a]

theorem mem_zeroRiskRule_iff (σ : List String → List String) (df : List Row)
    (token : String) (scc : List String) (x : String × List String) :
    x ∈ zeroRiskRule σ df token scc ↔
      x = (token, σ scc) ∧
        ∀ acc, round8 (balance (touching df token scc) acc) = 0 := by
  unfold zeroRiskRule
  by_cases h : ∀ acc, round8 (balance (touching df token scc) acc) = 0
  · rw [if_pos ((zeroRisk_cond_iff _).2 h)]
    simp [h]
  · rw [if_neg (fun hc => h ((zeroRisk_cond_iff _).1 hc))]
    simp [h]

/-! ### Shape of the SCC decomposition -/

theorem sccsOf_mem_shape {ν τ : Type} [DecidableEq ν] (g : DiGraph ν τ)
    (c : List ν) (hc : c ∈ sccsOf g) :
    ∃ u, c = g.nodes.filter (fun v => sameComp g u v) := by
  unfold sccsOf at hc
  have aux : ∀ (l : List ν) (acc : List (List ν)),
      (∀ c0 ∈ acc, ∃ u, c0 = g.nodes.filter (fun v => sameComp g u v)) →
      ∀ c0 ∈ l.foldl
          (fun acc u =>
            if acc.any (fun c => decide (u ∈ c)) then acc
            else acc ++ [g.nodes.filter (fun v => sameComp g u v)])
          acc,
        ∃ u, c0 = g.nodes.filter (fun v => sameComp g u v) := by
    intro l
    induction l with
    | nil => intro acc h c0 h0; exact h c0 h0
    | cons x l ih =>
      intro acc h c0 h0
      rw [List.foldl_cons] at h0
      refine ih _ ?_ c0 h0
      intro c1 h1
      by_cases hx : acc.any (fun c => decide (x ∈ c)) = true
      · rw [if_pos hx] at h1
        exact h c1 h1
      · rw [if_neg hx] at h1
        rcases List.mem_append.1 h1 with h2 | h2
        · exact h c1 h2
        · exact ⟨x, by simpa using h2⟩
  exact aux g.nodes [] (by simp) c hc

theorem sccsOf_nodup {ν τ : Type} [DecidableEq ν] (g : DiGraph ν τ)
    (hg : g.nodes.Nodup) (c : List ν) (hc : c ∈ sccsOf g) : c.Nodup := by
  obtain ⟨u, rfl⟩ := sccsOf_mem_shape g c hc
  exact hg.filter _

/-! ### The Common-Funder rule -/

theorem mem_commonFunderRule (σ : List String → List String) (df : List Row)
    (token : String) (scc : List String) (x : String × String × List String) :
    x ∈ commonFunderRule σ df token scc ↔
      ∃ f ∈ sendersOf (touching df token scc),
        2 ≤ ((targetsOf (touching df token scc) f).filter
            (fun a => decide (a ∈ scc))).length ∧
          x = (token, f, σ (targetsOf (touching df token scc) f)) := by
  unfold commonFunderRule
  rw [List.mem_flatMap]
  constructor
  · rintro ⟨f, hf, hx⟩
    by_cases h : 2 ≤ ((targetsOf (touching df token scc) f).filter
        (fun a => decide (a ∈ scc))).length
    · rw [if_pos h] at hx
      exact ⟨f, hf, h, by simpa using hx⟩
    · rw [if_neg h] at hx
      simp at hx
  · rintro ⟨f, hf, h, rfl⟩
    refine ⟨f, hf, ?_⟩
    rw [if_pos h]
    simp

theorem commonFunderRule_proj (σ : List String → List String) (df : List Row)
    (token : String) (scc : List String) :
    (commonFunderRule σ df token scc).map (fun x => x.2.1) =
      (sendersOf (touching df token scc)).filter (fun f =>
        decide (2 ≤ ((targetsOf (touching df token scc) f).filter
          (fun a => decide (a ∈ scc))).length)) := by
  unfold commonFunderRule
  generalize sendersOf (touching df token scc) = l
  induction l with
  | nil => rfl
  | cons f l ih =>
    rw [List.flatMap_cons, List.map_append, ih, List.filter_cons]
    by_cases h : 2 ≤ ((targetsOf (touching df token scc) f).filter
        (fun a => decide (a ∈ scc))).length
    · rw [if_pos h]
      simp [h]
    · rw [if_neg h]
      simp [h]

/-! ### Membership in the whole run -/

theorem mem_run_zero_risk (σ : List String → List String) (df : List Row)
    (x : String × List String) :
    x ∈ (run σ df).zero_risk ↔
      ∃ p ∈ buildGraphs df, ∃ scc ∈ sccsOf p.2, x ∈ zeroRiskRule σ df p.1 scc := by
  show x ∈ (allSCCs df).flatMap (fun x => zeroRiskRule σ df x.1 x.2.2) ↔ _
  rw [List.mem_flatMap]
  unfold allSCCs
  constructor
  · rintro ⟨t, ht, hx⟩
    rw [List.mem_flatMap] at ht
    obtain ⟨p, hp, ht⟩ := ht
    obtain ⟨scc, hscc, rfl⟩ := List.mem_map.1 ht
    exact ⟨p, hp, scc, hscc, hx⟩
  · rintro ⟨p, hp, scc, hscc, hx⟩
    refine ⟨(p.1, p.2, scc), ?_, hx⟩
    rw [List.mem_flatMap]
    exact ⟨p, hp, List.mem_map.2 ⟨scc, hscc, rfl⟩⟩

/-! ### Lister-independence of everything but the embedded list order -/

theorem flatMap_congr_of_mem {α β : Type} {l : List α} {f g : α → List β}
    (h : ∀ a ∈ l, f a = g a) : l.flatMap f = l.flatMap g := by
  induction l with
  | nil => rfl
  | cons x l ih =>
    rw [List.flatMap_cons, List.flatMap_cons, h x (List.mem_cons_self _ _),
      ih (fun a ha => h a (List.mem_cons_of_mem _ ha))]

theorem flatMap_perm_of_mem {α β : Type} {l : List α} {f g : α → List β}
    (h : ∀ a ∈ l, (f a).Perm (g a)) : (l.flatMap f).Perm (l.flatMap g) := by
  induction l with
  | nil => exact List.Perm.refl _
  | cons x l ih =>
    rw [List.flatMap_cons, List.flatMap_cons]
    exact (h x (List.mem_cons_self _ _)).append
      (ih (fun a ha => h a (List.mem_cons_of_mem _ ha)))

theorem selfTradeRule_perm (σ : List String → List String)
    (hσ : ∀ l, (σ l).Perm l) (token : String) (G : DiGraph String EAttr)
    (scc : List String) :
    (selfTradeRule σ token G scc).Perm (selfTradeRule id token G scc) := by
  unfold selfTradeRule
  exact (((hσ scc).filter _).map _)

theorem zeroRiskRule_map_norm (σ : List String → List String)
    (hσ : ∀ l, (σ l).Perm l) (df : List Row) (token : String) (scc : List String) :
    (zeroRiskRule σ df token scc).map (fun x => (x.1, (x.2 : Multiset String))) =
      (zeroRiskRule id df token scc).map (fun x => (x.1, (x.2 : Multiset String))) := by
  unfold zeroRiskRule
  by_cases h : ((accountsOf (touching df token scc)).filter
      (fun a => decide (round8 (balance (touching df token scc) a) ≠ 0))).length = 0
  · rw [if_pos h, if_pos h]
    simp only [List.map_cons, List.map_nil, id]
    rw [Multiset.coe_eq_coe.2 (hσ scc)]
  · rw [if_neg h, if_neg h]

theorem commonFunderRule_map_norm (σ : List String → List String)
    (hσ : ∀ l, (σ l).Perm l) (df : List Row) (token : String) (scc : List String) :
    (commonFunderRule σ df token scc).map
        (fun x => (x.1, x.2.1, (x.2.2 : Multiset String))) =
      (commonFunderRule id df token scc).map
        (fun x => (x.1, x.2.1, (x.2.2 : Multiset String))) := by
  unfold commonFunderRule
  rw [List.map_flatMap, List.map_flatMap]
  apply flatMap_congr_of_mem
  intro f _
  by_cases h : 2 ≤ ((targetsOf (touching df token scc) f).filter
      (fun a => decide (a ∈ scc))).length
  · rw [if_pos h, if_pos h]
    simp only [List.map_cons, List.map_nil, id]
    rw [Multiset.coe_eq_coe.2 (hσ _)]
  · rw [if_neg h, if_neg h]

theorem repeatedAll_map_norm (σ : List String → List String)
    (hσ : ∀ l, (σ l).Perm l)
    (xs : List (String × DiGraph String EAttr × List String))
    (past : List (Finset String)) :
    (repeatedAll σ xs past).map (fun x => (x.1, (x.2 : Multiset String))) =
      (repeatedAll id xs past).map (fun x => (x.1, (x.2 : Multiset String))) := by
  induction xs generalizing past with
  | nil => rfl
  | cons x xs ih =>
    unfold repeatedAll
    by_cases h : x.2.2.toFinset ∈ past
    · rw [if_pos h, if_pos h, List.map_cons, List.map_cons, ih]
      simp only [id]
      rw [Multiset.coe_eq_coe.2 (hσ _)]
    · rw [if_neg h, if_neg h]
      exact ih _

theorem normDet_run_eq_id (σ : List String → List String)
    (hσ : ∀ l, (σ l).Perm l) (df : List Row) :
    normDet (run σ df) = normDet (run id df) := by
  have hst : ((run σ df).self_trades : Multiset (String × String)) =
      ((run id df).self_trades : Multiset (String × String)) := by
    rw [Multiset.coe_eq_coe]
    show ((allSCCs df).flatMap (fun x => selfTradeRule σ x.1 x.2.1 x.2.2)).Perm
      ((allSCCs df).flatMap (fun x => selfTradeRule id x.1 x.2.1 x.2.2))
    exact flatMap_perm_of_mem (fun a _ => selfTradeRule_perm σ hσ a.1 a.2.1 a.2.2)
  have hz : ((run σ df).zero_risk).map (fun x => (x.1, (x.2 : Multiset String))) =
      ((run id df).zero_risk).map (fun x => (x.1, (x.2 : Multiset String))) := by
    show ((allSCCs df).flatMap (fun x => zeroRiskRule σ df x.1 x.2.2)).map _ =
      ((allSCCs df).flatMap (fun x => zeroRiskRule id df x.1 x.2.2)).map _
    rw [List.map_flatMap, List.map_flatMap]
    exact flatMap_congr_of_mem (fun a _ => zeroRiskRule_map_norm σ hσ df a.1 a.2.2)
  have hcf : ((run σ df).common_funder).map
      (fun x => (x.1, x.2.1, (x.2.2 : Multiset String))) =
      ((run id df).common_funder).map
        (fun x => (x.1, x.2.1, (x.2.2 : Multiset String))) := by
    show ((allSCCs df).flatMap (fun x => commonFunderRule σ df x.1 x.2.2)).map _ =
      ((allSCCs df).flatMap (fun x => commonFunderRule id df x.1 x.2.2)).map _
    rw [List.map_flatMap, List.map_flatMap]
    exact flatMap_congr_of_mem (fun a _ => commonFunderRule_map_norm σ hσ df a.1 a.2.2)
  have hr : ((run σ df).repeated_scc).map (fun x => (x.1, (x.2 : Multiset String))) =
      ((run id df).repeated_scc).map (fun x => (x.1, (x.2 : Multiset String))) :=
    repeatedAll_map_norm σ hσ (allSCCs df) []
  simp only [normDet, NormDetections.mk.injEq]
  exact ⟨hst, hz, hcf, rfl, hr⟩

/-! ### The claims

The rational-number operations of Batteries are marked irreducible;
they are unsealed here so that concrete runs of the pipeline evaluate
inside `decide`. -/

unseal Rat.sub Rat.mul Rat.add Rat.inv

/-- Claim C1 is false on the code: the graph is an `nx.DiGraph`, which
keeps at most one edge per ordered (sender, receiver) pair.  On `dfC1`,
asset T1 has two transactions A→B (prices 10 and 20), yet the built
graph holds a single A→B edge, carrying only the second transaction's
timestamp and price — the parallel edge is merged, not preserved. -/
theorem claim_C1_counterexample :
    (dfC1.filter (fun r => decide (r.token = "T1"))).length = 2 ∧
      ((lookupG (buildGraphs dfC1) "T1").getD DiGraph.empty).edges =
        [(("A", "B"), ⟨1, 20⟩)] := by
  decide

/-- Claim C1 amended: every transaction ensures that the edge
sender→receiver exists in its asset's graph, but multiple transfers
between the same ordered pair are merged into a single edge whose
{timestamp, price} come from the last such transfer in table order: the
asset's edge keys are the first-occurrence deduplication of its
transactions' (sender, receiver) pairs, and each edge's attribute record
is that of the last transaction with that key. -/
theorem claim_C1_theorem (df : List Row) (token : String)
    (G : DiGraph String EAttr) (hG : lookupG (buildGraphs df) token = some G) :
    edgeKeys G =
        dedupKeepFirst ((df.filter (fun r => decide (r.token = token))).map
          (fun r => (r.fromAcc, r.toAcc))) ∧
      ∀ e ∈ G.edges,
        (((df.filter (fun r => decide (r.token = token))).filter
            (fun r => decide ((r.fromAcc, r.toAcc) = e.1))).getLast?).map rowAttr =
          some e.2 := by
  have hnb := lookupG_buildWith_char Row.token Row.fromAcc Row.toAcc rowAttr df token G hG
  subst hnb
  exact buildOne_spec _ _ _ _

/-- Witness for the amended C1 at the concrete table `dfC1`. -/
theorem claim_C1_witness :
    lookupG (buildGraphs dfC1) "T1" = some gC1 ∧
      (edgeKeys gC1 =
          dedupKeepFirst ((dfC1.filter (fun r => decide (r.token = "T1"))).map
            (fun r => (r.fromAcc, r.toAcc))) ∧
        ∀ e ∈ gC1.edges,
          (((dfC1.filter (fun r => decide (r.token = "T1"))).filter
              (fun r => decide ((r.fromAcc, r.toAcc) = e.1))).getLast?).map rowAttr =
            some e.2) :=
  ⟨by decide, claim_C1_theorem dfC1 "T1" gC1 (by decide)⟩

/-- Claim C2 confirmed: for every (asset, component) pair the Zero-Risk
rule emits at most one finding; it emits exactly the finding
(asset, full member list) when every account's net balance over the
touching subset — price subtracted per outgoing transfer, added per
incoming — rounds to zero at 8 decimal places, and emits nothing
otherwise. -/
theorem claim_C2_theorem (σ : List String → List String) (df : List Row)
    (token : String) (scc : List String) :
    (zeroRiskRule σ df token scc).length ≤ 1 ∧
      ((token, σ scc) ∈ zeroRiskRule σ df token scc ↔
        ∀ acc, round8 (balance (touching df token scc) acc) = 0) ∧
      (¬(∀ acc, round8 (balance (touching df token scc) acc) = 0) →
        zeroRiskRule σ df token scc = []) := by
  refine ⟨?_, ?_, ?_⟩
  · unfold zeroRiskRule
    split <;> simp
  · rw [mem_zeroRiskRule_iff]
    simp
  · intro h
    unfold zeroRiskRule
    rw [if_neg (fun hc => h ((zeroRisk_cond_iff _).1 hc))]

/-- Claim C3 confirmed: over the touching subset, the Common-Funder rule
emits findings whose funder projection is exactly the list of distinct
senders whose distinct-receiver set meets the component in at least two
accounts (so one finding per qualifying funder, none at exactly one
intersecting receiver, several findings when several funders qualify),
and every finding for funder `f` carries the full receiver set of `f`. -/
theorem claim_C3_theorem (σ : List String → List String) (df : List Row)
    (token : String) (scc : List String) (f : String) :
    ((commonFunderRule σ df token scc).map (fun x => x.2.1) =
        (sendersOf (touching df token scc)).filter (fun g =>
          decide (2 ≤ ((targetsOf (touching df token scc) g).filter
            (fun a => decide (a ∈ scc))).length))) ∧
      ((commonFunderRule σ df token scc).map (fun x => x.2.1)).Nodup ∧
      ((∃ ts, (token, f, ts) ∈ commonFunderRule σ df token scc) ↔
        (f ∈ (touching df token scc).map Row.fromAcc ∧
          2 ≤ ((targetsOf (touching df token scc) f).filter
            (fun a => decide (a ∈ scc))).length)) ∧
      ∀ ts, (token, f, ts) ∈ commonFunderRule σ df token scc →
        ts = σ (targetsOf (touching df token scc) f) := by
  refine ⟨commonFunderRule_proj σ df token scc, ?_, ?_, ?_⟩
  · rw [commonFunderRule_proj σ df token scc]
    exact (nodup_dedupKeepFirst _).filter _
  · constructor
    · rintro ⟨ts, hts⟩
      obtain ⟨g, hg, h2, heq⟩ := (mem_commonFunderRule σ df token scc _).1 hts
      obtain ⟨rfl, rfl⟩ : f = g ∧ ts = σ (targetsOf (touching df token scc) g) := by
        have h1 := congrArg (fun x => x.2.1) heq
        have h3 := congrArg (fun x => x.2.2) heq
        exact ⟨h1, h3⟩
      refine ⟨?_, h2⟩
      unfold sendersOf at hg
      rwa [mem_dedupKeepFirst] at hg
    · rintro ⟨hf, h2⟩
      refine ⟨σ (targetsOf (touching df token scc) f), ?_⟩
      refine (mem_commonFunderRule σ df token scc _).2 ⟨f, ?_, h2, rfl⟩
      unfold sendersOf
      rw [mem_dedupKeepFirst]
      exact hf
  · intro ts hts
    obtain ⟨g, hg, h2, heq⟩ := (mem_commonFunderRule σ df token scc _).1 hts
    have h1 : f = g := congrArg (fun x => x.2.1) heq
    have h3 : ts = σ (targetsOf (touching df token scc) g) := congrArg (fun x => x.2.2) heq
    rw [h3, ← h1]

/-- Claim C4 is right and the code is wrong (code bug): the key the
Repeated-Cluster rule tests and inserts into `past_sccs` is the bare
`frozenset(scc)` — the token-prefixed `scc_id` computed at line 38 is
never used — so identity does NOT include the asset.  On `dfTwoTokens`
the account set {A, B} first occurs under asset T1, yet the rule fires
for asset T2, whose only prior occurrence of that set was under a
different asset. -/
theorem claim_C4_theorem :
    (run id dfTwoTokens).repeated_scc = [("T2", ["A", "B"])] := by
  decide

/-- Claim C5 is false on the code: `pd.read_csv` performs no
mandatory-field validation, so a record missing its price is loaded with
NaN and the STEP 1 loop adds its edge all the same — the run does not
abort, and the defective record does contribute an edge. -/
theorem claim_C5_counterexample :
    rawT1.price = none ∧
      (rawT1.fromAcc, rawT1.toAcc) ∈
        edgeKeys ((lookupG (buildGraphsRaw [rawT1]) rawT1.token).getD DiGraph.empty) := by
  decide

/-- Claim C5 amended: the load step performs no mandatory-field
validation; every record of the raw table — including records whose
sender, receiver or price is a missing value — contributes its
(sender, receiver) edge to its asset's graph, and detection proceeds. -/
theorem claim_C5_theorem (rs : List RawRow) (r : RawRow) (hr : r ∈ rs) :
    (r.fromAcc, r.toAcc) ∈
      edgeKeys ((lookupG (buildGraphsRaw rs) r.token).getD DiGraph.empty) := by
  have hmem : r ∈ rs.filter (fun x => decide (x.token = r.token)) :=
    List.mem_filter.2 ⟨hr, by simp⟩
  cases hf : rs.filter (fun x => decide (x.token = r.token)) with
  | nil =>
    rw [hf] at hmem
    simp at hmem
  | cons a l =>
    unfold buildGraphsRaw
    rw [lookupG_buildWith_some RawRow.token RawRow.fromAcc RawRow.toAcc rawAttr rs
      r.token a l hf, Option.getD_some]
    rw [hf] at hmem
    exact mem_edgeKeys_buildOne RawRow.fromAcc RawRow.toAcc rawAttr _ r hmem

/-- Witness for the amended C5: the price-less record of the one-row raw
table contributes its edge. -/
theorem claim_C5_witness :
    rawT1 ∈ [rawT1] ∧
      (rawT1.fromAcc, rawT1.toAcc) ∈
        edgeKeys ((lookupG (buildGraphsRaw [rawT1]) rawT1.token).getD DiGraph.empty) :=
  ⟨List.mem_singleton.2 rfl, claim_C5_theorem [rawT1] rawT1 (List.mem_singleton.2 rfl)⟩

/-- Claim C6 is false on the code in its Common-Exit part: on asset T1
with A→B (10) and B→A (10), the top receiver (B, the first-encountered
of the tied receivers) IS a member of the component {A, B}, so rule 4
does emit a Common-Exit finding. -/
theorem claim_C6_counterexample : ¬((run id dfPair).common_exit = []) := by
  decide

/-- Claim C6 amended: on asset T1 with transactions A→B (10) and
B→A (10) the pipeline emits a Zero-Risk finding for {A, B} and no
Self-Trade finding, and it also emits exactly one Common-Exit finding
(T1, B), because the tied top receiver is a component member. -/
theorem claim_C6_theorem :
    (run id dfPair).zero_risk = [("T1", ["A", "B"])] ∧
      (run id dfPair).self_trades = [] ∧
      (run id dfPair).common_exit = [("T1", "B")] := by
  decide

/-- Claim C7 is false on the code: a Zero-Risk cluster whose touching
transaction is a self-transfer keeps its finding under ANY price change,
because a self-transfer contributes both -price and +price to the same
balance.  Changing the only transaction's price from 5 to 6 — a nonzero
change — leaves the Zero-Risk finding for {A} in place. -/
theorem claim_C7_counterexample :
    ("T2", ["A"]) ∈ (run id [⟨"T2", "A", "A", 5, 0⟩]).zero_risk ∧
      ("T2", ["A"]) ∈ (run id [⟨"T2", "A", "A", 6, 0⟩]).zero_risk := by
  decide

/-- Claim C7 amended: if a cluster is reported Zero-Risk, changing the
price of any single touching NON-self-transfer transaction by an amount
exceeding 10⁻⁸ in absolute value (enough that the shifted balance must
survive the 8-decimal rounding) removes the Zero-Risk finding for that
cluster on the modified input.  The restriction to non-self-transfers is
forced by the counterexample: a self-transfer contributes -price and
+price to the same account, so no change of its price alters any
balance.  (Whether a perturbation of at most 10⁻⁸ removes the finding
depends on how the shifted balances round; this theorem asserts nothing
about that regime.) -/
theorem claim_C7_theorem (df₁ df₂ : List Row) (t : Row) (δ : ℚ)
    (token : String) (scc : List String)
    (hne : t.fromAcc ≠ t.toAcc)
    (htok : t.token = token)
    (htouch : t.fromAcc ∈ scc ∨ t.toAcc ∈ scc)
    (hδ : 1 / 100000000 < δ ∨ δ < -(1 / 100000000))
    (hmem : (token, scc) ∈ (run id (df₁ ++ t :: df₂)).zero_risk) :
    (token, scc) ∉
      (run id (df₁ ++ { t with price := t.price + δ } :: df₂)).zero_risk := by
  intro hmem2
  obtain ⟨q, hq, c, hc, hx⟩ := (mem_run_zero_risk _ _ _).1 hmem
  obtain ⟨hx1, hcond⟩ := (mem_zeroRiskRule_iff _ _ _ _ _).1 hx
  obtain ⟨q2, hq2, c2, hc2, hx2⟩ := (mem_run_zero_risk _ _ _).1 hmem2
  obtain ⟨hx21, hcond2⟩ := (mem_zeroRiskRule_iff _ _ _ _ _).1 hx2
  have hqt : q.1 = token := (congrArg Prod.fst hx1).symm
  have hcs : scc = c := congrArg Prod.snd hx1
  have hqt2 : q2.1 = token := (congrArg Prod.fst hx21).symm
  have hcs2 : scc = c2 := congrArg Prod.snd hx21
  rw [hqt, ← hcs] at hcond
  rw [hqt2, ← hcs2] at hcond2
  have h1 : touching (df₁ ++ t :: df₂) token scc =
      touching df₁ token scc ++ t :: touching df₂ token scc := by
    unfold touching
    rw [List.filter_append, List.filter_cons_of_pos
      (by rw [decide_eq_true_eq]; exact ⟨htok, htouch⟩)]
  have h2 : touching (df₁ ++ { t with price := t.price + δ } :: df₂) token scc =
      touching df₁ token scc ++
        { t with price := t.price + δ } :: touching df₂ token scc := by
    unfold touching
    rw [List.filter_append, List.filter_cons_of_pos
      (by rw [decide_eq_true_eq]; exact ⟨htok, htouch⟩)]
  have hbal1 := hcond t.fromAcc
  have hbal2 := hcond2 t.fromAcc
  rw [h1, balance_append, balance_cons] at hbal1
  rw [h2, balance_append, balance_cons] at hbal2
  have hct : contrib t.fromAcc t = -t.price := by
    unfold contrib
    rw [if_neg (fun hx => hne hx.symm), if_pos rfl]
    ring
  have hct2 : contrib t.fromAcc { t with price := t.price + δ } = -(t.price + δ) := by
    unfold contrib
    rw [if_neg (fun hx => hne hx.symm), if_pos rfl]
    ring
  rw [hct] at hbal1
  rw [hct2] at hbal2
  have harg : balance (touching df₁ token scc) t.fromAcc +
      (-(t.price + δ) + balance (touching df₂ token scc) t.fromAcc) =
      (balance (touching df₁ token scc) t.fromAcc +
        (-t.price + balance (touching df₂ token scc) t.fromAcc)) - δ := by
    ring
  rw [harg] at hbal2
  exact round8_sub_ne_zero _ δ hbal1 hδ hbal2

/-- Witness for the amended C7: perturbing the B→A leg of the Zero-Risk
pair {A, B} by +1 removes the finding. -/
theorem claim_C7_witness :
    (⟨"T1", "B", "A", 10, 1⟩ : Row).fromAcc ≠ (⟨"T1", "B", "A", 10, 1⟩ : Row).toAcc ∧
      ((1 : ℚ) / 100000000 < 1 ∨ (1 : ℚ) < -(1 / 100000000)) ∧
      ("T1", ["A", "B"]) ∈
        (run id ([⟨"T1", "A", "B", 10, 0⟩] ++ ⟨"T1", "B", "A", 10, 1⟩ :: [])).zero_risk ∧
      ("T1", ["A", "B"]) ∉
        (run id ([⟨"T1", "A", "B", 10, 0⟩] ++
          { (⟨"T1", "B", "A", 10, 1⟩ : Row) with
              price := (⟨"T1", "B", "A", 10, 1⟩ : Row).price + 1 } :: [])).zero_risk :=
  ⟨by decide, Or.inl (by norm_num),
    by decide,
    claim_C7_theorem [⟨"T1", "A", "B", 10, 0⟩] [] ⟨"T1", "B", "A", 10, 1⟩ 1 "T1"
      ["A", "B"] (by decide) rfl (by decide) (Or.inl (by norm_num)) (by decide)⟩

/-- Claim C8 is false on the code across OS-level runs: the account list
embedded in a finding is `list(scc)`, whose order follows the Python
process's string-hash-dependent set-iteration order.  Two executions of
the same detection on the same input whose set-iteration orders differ
(modelled by the permutation listers `id` and reversal) produce
different Zero-Risk finding lists. -/
theorem claim_C8_counterexample :
    (run revLister dfPair).zero_risk ≠ (run id dfPair).zero_risk := by
  decide

/-- Claim C8 amended: two runs of the detection on the same input (under
any two set-iteration orders, each a permutation lister) produce
identical per-category counts, and finding lists that agree up to the
set-iteration-order-dependent parts: the internal order of the account
lists embedded in Zero-Risk, Common-Funder and Repeated-Cluster
findings, and the emission order of the Self-Trade findings within a
component; those orders may differ between runs. -/
theorem claim_C8_theorem (σ₁ σ₂ : List String → List String) (df : List Row)
    (h₁ : ∀ l, (σ₁ l).Perm l) (h₂ : ∀ l, (σ₂ l).Perm l) :
    countsOf (run σ₁ df) = countsOf (run σ₂ df) ∧
      normDet (run σ₁ df) = normDet (run σ₂ df) := by
  have e : normDet (run σ₁ df) = normDet (run σ₂ df) :=
    (normDet_run_eq_id σ₁ h₁ df).trans (normDet_run_eq_id σ₂ h₂ df).symm
  refine ⟨?_, e⟩
  have hst := congrArg (fun d => Multiset.card d.self_trades) e
  have hz := congrArg (fun d => d.zero_risk.length) e
  have hcf := congrArg (fun d => d.common_funder.length) e
  have hce := congrArg (fun d => d.common_exit.length) e
  have hrs := congrArg (fun d => d.repeated_scc.length) e
  simp only [normDet, Multiset.coe_card, List.length_map] at hst hz hcf hce hrs
  unfold countsOf
  rw [hst, hz, hcf, hce, hrs]

/-- Witness for the amended C8: the identity and reversal listers on the
two-transfer input agree on counts and on normalised findings. -/
theorem claim_C8_witness :
    (∀ l : List String, (revLister l).Perm l) ∧
      countsOf (run revLister dfPair) = countsOf (run id dfPair) ∧
        normDet (run revLister dfPair) = normDet (run id dfPair) :=
  ⟨fun l => List.reverse_perm l,
    claim_C8_theorem revLister id dfPair (fun l => List.reverse_perm l)
      (fun l => List.Perm.refl l)⟩

/-- Claim C9 confirmed: within one (asset, component), the Self-Trade
rule emits the finding (asset, n) exactly once for every component node
n carrying a self-edge — even when several self-transfer transactions
produced that (merged) self-edge — and never for a node without a
self-edge; this holds under every node-iteration order (any permutation
lister). -/
theorem claim_C9_theorem (σ : List String → List String) (df : List Row)
    (token : String) (G : DiGraph String EAttr) (scc : List String) (n : String)
    (hσ : (σ scc).Perm scc)
    (hG : lookupG (buildGraphs df) token = some G)
    (hscc : scc ∈ sccsOf G) :
    (selfTradeRule σ token G scc).countP (fun x => decide (x = (token, n))) =
      if n ∈ scc ∧ (n, n) ∈ edgeKeys G then 1 else 0 := by
  have hnb := lookupG_buildWith_char Row.token Row.fromAcc Row.toAcc rowAttr df token G hG
  have hnd : G.nodes.Nodup := by
    rw [hnb]
    exact nodup_nodes_buildOne _ _ _ _
  have hsd : scc.Nodup := sccsOf_nodup G hnd scc hscc
  unfold selfTradeRule
  rw [List.countP_map, ((hσ.filter _).countP_eq _)]
  by_cases he : (n, n) ∈ edgeKeys G
  · have hpt : ∀ m ∈ scc.filter (fun m => decide ((m, m) ∈ edgeKeys G)),
        (((fun x => decide (x = (token, n))) ∘ (fun m => (token, m))) m = true ↔
          (fun m => decide (m = n)) m = true) := by
      intro m _
      simp [Prod.ext_iff]
    rw [List.countP_congr hpt, countP_eq_of_nodup _ (hsd.filter _) n]
    by_cases hm : n ∈ scc
    · rw [if_pos (List.mem_filter.2 ⟨hm, by simpa using he⟩), if_pos ⟨hm, he⟩]
    · rw [if_neg (fun hc => hm (List.mem_filter.1 hc).1), if_neg (fun hc => hm hc.1)]
  · have hpt : ∀ m ∈ scc.filter (fun m => decide ((m, m) ∈ edgeKeys G)),
        (((fun x => decide (x = (token, n))) ∘ (fun m => (token, m))) m = true ↔
          (fun _ => false) m = true) := by
      intro m hm
      have hme : (m, m) ∈ edgeKeys G := by
        simpa using (List.mem_filter.1 hm).2
      simp only [Function.comp_apply, Prod.mk.injEq, decide_eq_true_eq, true_and,
        Bool.false_eq_true, iff_false]
      intro hc
      exact he (hc ▸ hme)
    rw [List.countP_congr hpt, List.countP_false, if_neg (fun hc => he hc.2)]
    rfl

/-- Witness for C9 at the concrete self-trade table `dfSelf`, under the
identity lister. -/
theorem claim_C9_witness :
    (id ["A"] : List String).Perm ["A"] ∧
      lookupG (buildGraphs dfSelf) "T2" = some gSelf ∧
      ["A"] ∈ sccsOf gSelf ∧
      (selfTradeRule id "T2" gSelf ["A"]).countP (fun x => decide (x = ("T2", "A"))) =
        if "A" ∈ ["A"] ∧ ("A", "A") ∈ edgeKeys gSelf then 1 else 0 :=
  ⟨List.Perm.refl _, by decide, by decide,
    claim_C9_theorem id dfSelf "T2" gSelf ["A"] "A" (List.Perm.refl _) (by decide)
      (by decide)⟩

/-- Claim C10 confirmed: when all of an asset's transactions touching a
singleton component {A} are self-transfers A→A, every account balance
over the touching subset is zero (each self-transfer contributes both
-price and +price), so the Zero-Risk rule also emits (asset, [A]); in
particular a table holding a single transaction A→A at any price yields
both the Self-Trade finding (asset, A) and the Zero-Risk finding
(asset, [A]). -/
theorem claim_C10_theorem :
    (∀ (σ : List String → List String) (df : List Row) (token : String)
        (G : DiGraph String EAttr) (A : String),
      lookupG (buildGraphs df) token = some G →
      [A] ∈ sccsOf G →
      (∀ r ∈ df, r.token = token → (r.fromAcc = A ∨ r.toAcc = A) →
        r.fromAcc = A ∧ r.toAcc = A) →
      (token, σ [A]) ∈ (run σ df).zero_risk) ∧
    (∀ (p : ℚ) (ts : Int) (token A : String),
      (run id [⟨token, A, A, p, ts⟩]).self_trades = [(token, A)] ∧
        (run id [⟨token, A, A, p, ts⟩]).zero_risk = [(token, [A])]) := by
  constructor
  · intro σ df token G A hG hscc hself
    rw [mem_run_zero_risk]
    refine ⟨(token, G), lookupG_mem _ _ _ hG, [A], hscc, ?_⟩
    rw [mem_zeroRiskRule_iff]
    refine ⟨rfl, ?_⟩
    intro acc
    have hrows : ∀ r ∈ touching df token [A], r.fromAcc = r.toAcc := by
      intro r hr
      obtain ⟨hrdf, hcnd⟩ := List.mem_filter.1 hr
      simp only [decide_eq_true_eq, List.mem_singleton] at hcnd
      obtain ⟨htk, hor⟩ := hcnd
      obtain ⟨hf, ht⟩ := hself r hrdf htk hor
      rw [hf, ht]
    rw [balance_zero_of_selfrows _ hrows acc]
    exact round8_zero
  · intro p ts token A
    have hG1 : buildGraphs [⟨token, A, A, p, ts⟩] =
        [(token, ⟨[A], [((A, A), ⟨ts, p⟩)]⟩)] := by
      simp [buildGraphs, buildWith, upsertGraph, addEdge, addNode, edgeKeys,
        DiGraph.empty, rowAttr]
    have hS1 : sccsOf (⟨[A], [((A, A), ⟨ts, p⟩)]⟩ : DiGraph String EAttr) = [[A]] := by
      simp [sccsOf, sameComp, reachList, stepReach, succs, dedupKeepFirst, dedupAux]
    have hA1 : allSCCs [⟨token, A, A, p, ts⟩] =
        [(token, ⟨[A], [((A, A), ⟨ts, p⟩)]⟩, [A])] := by
      simp [allSCCs, hG1, hS1]
    have hT1 : touching [⟨token, A, A, p, ts⟩] token [A] = [⟨token, A, A, p, ts⟩] := by
      simp [touching]
    have hB1 : balance [⟨token, A, A, p, ts⟩] A = 0 := by
      simp [balance, contrib]
    constructor
    · show ((allSCCs [⟨token, A, A, p, ts⟩]).flatMap
          (fun x => selfTradeRule id x.1 x.2.1 x.2.2)) = [(token, A)]
      rw [hA1]
      simp [selfTradeRule, edgeKeys]
    · show ((allSCCs [⟨token, A, A, p, ts⟩]).flatMap
          (fun x => zeroRiskRule id [⟨token, A, A, p, ts⟩] x.1 x.2.2)) = [(token, [A])]
      rw [hA1]
      simp [zeroRiskRule, hT1, accountsOf, dedupKeepFirst, dedupAux, hB1, round8_zero]

/-- Witness for C10 at the concrete self-trade table `dfSelf`. -/
theorem claim_C10_witness :
    lookupG (buildGraphs dfSelf) "T2" = some gSelf ∧
      ["A"] ∈ sccsOf gSelf ∧
      (∀ r ∈ dfSelf, r.token = "T2" → (r.fromAcc = "A" ∨ r.toAcc = "A") →
        r.fromAcc = "A" ∧ r.toAcc = "A") ∧
      ("T2", id ["A"]) ∈ (run id dfSelf).zero_risk :=
  ⟨by decide, by decide, by decide,
    claim_C10_theorem.1 id dfSelf "T2" gSelf "A" (by decide) (by decide) (by decide)⟩

end WashTrade
